import Mathlib

/-!
Verification of the hierarchical edge-index core described by the
specification of `include/qtcad/QgModel.h` (BRL-CAD Qt model of a .g
database).  The header declares the data model: `QgInstance` (one
parent→child comb-tree instance with transform, boolean operation and an
`active` highlight flag), the cross-indexed containers
`parent_children` / `child_parents`, the `free_instances` reuse pool and
the change-tracking members `need_update_nref` / `changed_dp`.  The
operations over this data (insertion, removal, reconciliation,
activation propagation) are specified but not implemented in the header,
so they are modelled here from the specification text and verified
against its testable properties.
-/

namespace QgModelSpec

/-- Boolean combination operators, mirroring `db_op_t` as used by
`QgInstance::op` in QgModel.h. -/
inductive db_op_t where
  | DB_OP_UNION
  | DB_OP_SUBTRACT
  | DB_OP_INTERSECT
  | DB_OP_NULL
deriving DecidableEq, Repr

/-- Opaque 4×4 transform payload (`mat_t c_m` in QgModel.h): carried, never
interpreted, by the core. -/
abbrev Mat := List Int

/-- An entry name (the `std::string` keys of `parent_children` /
`child_parents` in QgModel.h); a parent key of `none` is the ROOT sentinel. -/
abbrev PKey := Option String

/-- Modelled from the spec: the Edge (Instance) record of §3 — one
parent→child relationship with a transform, a boolean operator and a mutable
activation flag.  This models the payload of a `QgInstance` as stored in the
index; `QgModel.h` declares the class but no operations over it. -/
structure Edge where
  parent : PKey
  child : String
  transform : Mat
  op : db_op_t
  active : Bool
deriving DecidableEq, Repr

/-- Lookup in the live-edge heap (allocation id ↦ edge).  Allocation ids model
the `QgInstance *` pointers that `parent_children` / `child_parents` share. -/
def storeGet (i : Nat) : List (Nat × Edge) → Option Edge
  | [] => none
  | (j, e) :: t => if j = i then some e else storeGet i t

/-- Bucket read in an association list keyed by parent (the inner map of
`child_parents`); absent key reads as the empty bucket. -/
def alGet (p : PKey) : List (PKey × List Nat) → List Nat
  | [] => []
  | (q, v) :: t => if q = p then v else alGet p t

/-- Bucket update in an association list keyed by parent: rewrites the first
bucket with key `p`, appending a fresh bucket when none exists. -/
def alUpdate (p : PKey) (f : List Nat → List Nat) :
    List (PKey × List Nat) → List (PKey × List Nat)
  | [] => [(p, f [])]
  | (q, v) :: t => if q = p then (q, f v) :: t else (q, v) :: alUpdate p f t

/-- Modelled from the spec: the EdgeIndex of §3 — the live-edge heap plus the
two derived mappings declared in `QgModel_ctx` (`parent_children`:
parent ↦ ordered edges; `child_parents`: child ↦ parent ↦ edges) and the
`free_instances` reuse pool (EdgePool).  QgModel.h declares the containers but
none of the maintenance operations. -/
structure EdgeIndex where
  store : List (Nat × Edge)
  parent_children : PKey → List Nat
  child_parents : String → List (PKey × List Nat)
  pool : List (Nat × Edge)
  nextId : Nat

/-- The index of a fresh session: no live edges, empty buckets, empty pool. -/
def emptyIndex : EdgeIndex :=
  { store := []
    parent_children := fun _ => []
    child_parents := fun _ => []
    pool := []
    nextId := 0 }

/-- Modelled from the spec: `children_of(parent)` of §4.1 — the live edges
under `parent`, read through the `parent_children` mapping. -/
def children_of (idx : EdgeIndex) (p : PKey) : List Edge :=
  (idx.parent_children p).filterMap (fun i => storeGet i idx.store)

/-- Modelled from the spec: `parents_of(child)` of §4.1 — for a given child
and parent, the edges realizing that relationship, read through the
`child_parents` mapping. -/
def parents_of (idx : EdgeIndex) (c : String) (p : PKey) : List Edge :=
  (alGet p (idx.child_parents c)).filterMap (fun i => storeGet i idx.store)

/-- Modelled from the spec: `insert_edge(parent, child, transform, op)` of
§4.1 — allocates (reusing EdgePool when possible), inserts into both mappings,
and returns the new handle.  Identity under exact duplicates follows the §9
strategy: every edge gets a distinct allocation id, so duplicates remain
distinguishable (the implementation's chosen disambiguation policy). -/
def insert_edge (idx : EdgeIndex) (p : PKey) (c : String) (t : Mat)
    (o : db_op_t) : EdgeIndex × Nat :=
  let i := match idx.pool with
    | [] => idx.nextId
    | (j, _) :: _ => j
  let e : Edge := { parent := p, child := c, transform := t, op := o,
                    active := false }
  ({ store := (i, e) :: idx.store
     parent_children := fun q =>
       if q = p then idx.parent_children p ++ [i] else idx.parent_children q
     child_parents := fun c' =>
       if c' = c then alUpdate p (fun l => l ++ [i]) (idx.child_parents c)
       else idx.child_parents c'
     pool := idx.pool.tail
     nextId := if idx.pool.isEmpty then idx.nextId + 1 else idx.nextId }, i)

/-- Modelled from the spec: `remove_edge(e)` of §4.1 — removes the edge from
both mappings, clears its `active` flag, and returns its storage to EdgePool;
a no-op when the edge is already retired. -/
def remove_edge (idx : EdgeIndex) (i : Nat) : EdgeIndex :=
  match storeGet i idx.store with
  | none => idx
  | some e =>
    { store := idx.store.filter (fun pr => pr.1 != i)
      parent_children := fun q =>
        if q = e.parent then (idx.parent_children q).filter (fun j => j != i)
        else idx.parent_children q
      child_parents := fun c' =>
        if c' = e.child then
          alUpdate e.parent (fun l => l.filter (fun j => j != i))
            (idx.child_parents c')
        else idx.child_parents c'
      pool := (i, { e with active := false }) :: idx.pool
      nextId := idx.nextId }

/-- Whether an edge references entry `x` as parent or child. -/
def Edge.refs (e : Edge) (x : String) : Bool :=
  e.parent == some x || e.child == x

/-- Modelled from the spec: `remove_all_for(entry)` of §4.1 — removes every
edge where `entry` is parent or child, used when an entry is deleted; retired
storage goes to EdgePool. -/
def remove_all_for (idx : EdgeIndex) (x : String) : EdgeIndex :=
  let victims := (idx.store.filter (fun pr => pr.2.refs x)).map Prod.fst
  { store := idx.store.filter (fun pr => !(pr.2.refs x))
    parent_children := fun q =>
      (idx.parent_children q).filter (fun j => !(decide (j ∈ victims)))
    child_parents := fun c' =>
      (idx.child_parents c').map
        (fun pr => (pr.1, pr.2.filter (fun j => !(decide (j ∈ victims)))))
    pool := (idx.store.filter (fun pr => pr.2.refs x)).map
        (fun pr => (pr.1, { pr.2 with active := false })) ++ idx.pool
    nextId := idx.nextId }

/-- Set (or reset) the `active` flag of the edge stored under id `i`. -/
def setActive (b : Bool) (i : Nat) : List (Nat × Edge) → List (Nat × Edge)
  | [] => []
  | (j, e) :: t =>
    if j = i then (j, { e with active := b }) :: setActive b i t
    else (j, e) :: setActive b i t

/-- All edge ids whose child is `cur`, found via the `child_parents` mapping
(union of the inner per-parent buckets). -/
def entryEdges (idx : EdgeIndex) (cur : String) : List Nat :=
  ((idx.child_parents cur).map Prod.snd).flatten

/-- Worklist enqueue step: enqueue each parent entry not yet visited, marking
it visited; an entry already visited is never re-enqueued (§4.3). -/
def enqueueNew (qv : List String × List String) (ps : List String) :
    List String × List String :=
  ps.foldl
    (fun qv p => if p ∈ qv.2 then qv else (qv.1 ++ [p], p :: qv.2)) qv

/-- Modelled from the spec: the breadth-first upward walk of §4.3.  Dequeue an
entry, mark active every not-yet-collected edge whose child equals that entry
(found via `child_parents`), and enqueue each such edge's parent entry unless
already visited.  The fuel argument bounds the number of dequeues; `none`
means the fuel ran out before the worklist emptied. -/
def bfs : Nat → List String → List String → EdgeIndex → List Nat →
    Option (EdgeIndex × List Nat)
  | _, [], _, idx, acc => some (idx, acc)
  | 0, _ :: _, _, _, _ => none
  | fuel + 1, cur :: qs, visited, idx, acc =>
    let ids := entryEdges idx cur
    let sa := ids.foldl
      (fun sa i => if i ∈ sa.2 then sa else (setActive true i sa.1, sa.2 ++ [i]))
      (idx.store, acc)
    let ps := ids.filterMap (fun i => (storeGet i idx.store).bind Edge.parent)
    let qv := enqueueNew (qs, visited) ps
    bfs fuel qv.1 qv.2 { idx with store := sa.1 } sa.2

/-- Modelled from the spec: `activate_ancestors(start)` of §4.3 — marks the
starting edge active, then walks upward from its parent entry with a
visited-set-guarded worklist, returning the updated index and the set of edge
ids whose `active` flag was set.  `none` for a retired start (a precondition
violation per §7) or if the fuel bound were ever insufficient. -/
def activate_ancestors (idx : EdgeIndex) (i : Nat) :
    Option (EdgeIndex × List Nat) :=
  match storeGet i idx.store with
  | none => none
  | some e =>
    let idx0 := { idx with store := setActive true i idx.store }
    match e.parent with
    | none => some (idx0, [i])
    | some p => bfs (idx.store.length + 2) [p] [p] idx0 [i]

/-- Modelled from the spec: `clear_activation` of §4.3 — resets `active` on
every edge in the index. -/
def clear_activation (idx : EdgeIndex) : EdgeIndex :=
  { idx with
    store := idx.store.map (fun pr => (pr.1, { pr.2 with active := false })) }

/-- The notification kinds of `on_entry_changed` (§4.2). -/
inductive ChangeKind where
  | ADDED
  | MODIFIED
  | REMOVED
deriving DecidableEq, Repr

/-- Modelled from the spec: the ChangeTracker state of §3 — the dirty-entry
set and the topology-stale flag, over the index.  These correspond to the
`changed_dp` set and `need_update_nref` flag declared in `QgModel`
(QgModel.h), whose maintenance code is not in the header. -/
structure ChangeTracker where
  index : EdgeIndex
  dirty_entries : List String
  topology_stale : Bool

/-- Modelled from the spec: `on_entry_changed` of §4.2 — records the entry in
`dirty_entries` (removal work is deferred to the next reconciliation pass). -/
def on_entry_changed (t : ChangeTracker) (x : String) (_k : ChangeKind) :
    ChangeTracker :=
  { t with dirty_entries :=
      if x ∈ t.dirty_entries then t.dirty_entries else x :: t.dirty_entries }

/-- Modelled from the spec: `on_topology_invalidated` of §4.2 — sets the
topology-stale flag. -/
def on_topology_invalidated (t : ChangeTracker) : ChangeTracker :=
  { t with topology_stale := true }

/-- The relationships the external database reports for one entry during
reconciliation (`discover(EntryRef) -> {parents, children}` of §6), each with
its transform and operator. -/
structure Rels where
  parents : List (PKey × Mat × db_op_t)
  children : List (String × Mat × db_op_t)

/-- Re-insert a batch of discovered relationships
(parent, child, transform, op). -/
def insertMany (idx : EdgeIndex) (l : List (PKey × String × Mat × db_op_t)) :
    EdgeIndex :=
  l.foldl (fun a r => (insert_edge a r.1 r.2.1 r.2.2.1 r.2.2.2).1) idx

/-- Modelled from the spec: one reconciliation step of §4.2 — retire the
entry's stale edges via `remove_all_for`, then re-insert the relationships the
external `discover` callback currently reports for it. -/
def reindex_entry (idx : EdgeIndex) (x : String) (discover : String → Rels) :
    EdgeIndex :=
  let r := discover x
  insertMany (remove_all_for idx x)
    (r.parents.map (fun pr => (pr.1, x, pr.2.1, pr.2.2)) ++
     r.children.map (fun pr => (some x, pr.1, pr.2.1, pr.2.2)))

/-- Modelled from the spec: `reconcile` of §4.2 — processes every dirty entry
(the whole entry set when topology-stale), then clears both `dirty_entries`
and `topology_stale`. -/
def reconcile (t : ChangeTracker) (allEntries : List String)
    (discover : String → Rels) : ChangeTracker :=
  let work := if t.topology_stale then allEntries else t.dirty_entries
  { index := work.foldl (fun a x => reindex_entry a x discover) t.index
    dirty_entries := []
    topology_stale := false }

/-- Mirrors `class QgInstance` of QgModel.h: the nullable `parent` and `dp`
directory pointers (modelled as optional names), the child name `dp_name`,
the boolean operation `op`, the raw matrix `c_m` and the `int active`
highlight flag. -/
structure QgInstance where
  parent : Option String
  dp : Option String
  dp_name : String
  op : db_op_t
  c_m : Mat
  active : Int
deriving DecidableEq, Repr

/-- The default-constructed `QgInstance`, per the in-class initializers of
QgModel.h: `parent = NULL`, `dp = NULL`, `dp_name` default-constructed empty,
`op = DB_OP_NULL`, `active = 0`.  The raw `mat_t c_m` array has no
initializer, so it is an arbitrary value `m`. -/
def QgInstance.mk0 (m : Mat) : QgInstance :=
  { parent := none
    dp := none
    dp_name := ""
    op := .DB_OP_NULL
    c_m := m
    active := 0 }

/-- Mirrors the .g-database-facing state of `class QgModel` in QgModel.h: the
`bool need_update_nref = false` flag and the `changed_dp` set of modified
directory entries (an `unordered_set`, default-constructed empty).  The Qt
item-model plumbing is outside the core. -/
structure QgModel where
  need_update_nref : Bool
  changed_dp : List String
deriving DecidableEq, Repr

/-- The freshly constructed `QgModel`, per the in-class initializers of
QgModel.h: `need_update_nref = false` and `changed_dp` default-constructed
empty. -/
def QgModel.mk0 : QgModel :=
  { need_update_nref := false
    changed_dp := [] }

/-- The public mutating operations of the core index (§4.1, §4.3). -/
inductive Op where
  | insert (p : PKey) (c : String) (t : Mat) (o : db_op_t)
  | remove (i : Nat)
  | removeAll (x : String)
  | activate (i : Nat)
  | clear

/-- Apply one public operation to the index (an activation that fails its
precondition or fuel bound leaves the index unchanged). -/
def applyOp (idx : EdgeIndex) : Op → EdgeIndex
  | .insert p c t o => (insert_edge idx p c t o).1
  | .remove i => remove_edge idx i
  | .removeAll x => remove_all_for idx x
  | .activate i =>
    match activate_ancestors idx i with
    | some r => r.1
    | none => idx
  | .clear => clear_activation idx

/-- Index states reachable from the empty index through the public
operations. -/
inductive Reachable : EdgeIndex → Prop where
  | empty : Reachable emptyIndex
  | step {idx : EdgeIndex} (op : Op) : Reachable idx → Reachable (applyOp idx op)

/-! ### Basic lemmas about the heap and the bucket maps -/

theorem storeGet_eq_none_iff {i : Nat} {s : List (Nat × Edge)} :
    storeGet i s = none ↔ i ∉ s.map Prod.fst := by
  induction s with
  | nil => simp [storeGet]
  | cons hd t ih =>
    obtain ⟨j, e⟩ := hd
    by_cases h : j = i
    · subst h; simp [storeGet]
    · simp [storeGet, h, ih, Ne.symm h]

theorem storeGet_isSome_iff {i : Nat} {s : List (Nat × Edge)} :
    (∃ e, storeGet i s = some e) ↔ i ∈ s.map Prod.fst := by
  rcases h : storeGet i s with _ | e
  · rw [storeGet_eq_none_iff] at h; simp [h]
  · have : i ∈ s.map Prod.fst := by
      by_contra hc
      rw [← storeGet_eq_none_iff] at hc
      rw [h] at hc; exact Option.noConfusion hc
    simp [this]

theorem mem_of_storeGet {i : Nat} {s : List (Nat × Edge)} {e : Edge}
    (h : storeGet i s = some e) : (i, e) ∈ s := by
  induction s with
  | nil => simp [storeGet] at h
  | cons hd t ih =>
    obtain ⟨j, e'⟩ := hd
    by_cases hj : j = i
    · subst hj
      simp [storeGet] at h
      simp [h]
    · simp [storeGet, hj] at h
      simp [ih h]

theorem storeGet_filter {i : Nat} {s : List (Nat × Edge)}
    (h : (s.map Prod.fst).Nodup) (q : Nat × Edge → Bool) :
    storeGet i (s.filter q) =
      (storeGet i s).bind (fun e => if q (i, e) then some e else none) := by
  induction s with
  | nil => simp [storeGet]
  | cons hd t ih =>
    obtain ⟨j, e⟩ := hd
    simp only [List.map_cons, List.nodup_cons] at h
    by_cases hj : j = i
    · subst hj
      rcases hq : q (j, e) with _ | _
      · have hn : storeGet j t = none := by
          rw [storeGet_eq_none_iff]; exact h.1
        simp [List.filter_cons, hq, storeGet, ih h.2, hn]
      · simp [List.filter_cons, hq, storeGet]
    · rcases hq : q (j, e) with _ | _
      · simp only [List.filter_cons, hq, Bool.false_eq_true, if_false]
        simp [storeGet, hj, ih h.2]
      · simp only [List.filter_cons, hq, if_true]
        simp [storeGet, hj, ih h.2]

theorem storeGet_filter_self {i : Nat} {s : List (Nat × Edge)} :
    storeGet i (s.filter (fun pr => pr.1 != i)) = none := by
  induction s with
  | nil => simp [storeGet]
  | cons hd t ih =>
    obtain ⟨j, e⟩ := hd
    by_cases hj : j = i
    · subst hj; simp [List.filter_cons, ih]
    · simp [List.filter_cons, hj, storeGet, ih]

theorem storeGet_setActive {b : Bool} {i j : Nat} {s : List (Nat × Edge)} :
    storeGet j (setActive b i s) =
      if j = i then (storeGet j s).map (fun e => { e with active := b })
      else storeGet j s := by
  induction s with
  | nil => simp [storeGet, setActive]
  | cons hd t ih =>
    obtain ⟨k, e⟩ := hd
    by_cases hk : k = i
    · subst hk
      by_cases hj : k = j
      · subst hj; simp [setActive, storeGet]
      · simp [setActive, storeGet, hj, ih]
    · by_cases hj : k = j
      · subst hj
        simp [setActive, storeGet, hk, Ne.symm hk]
      · simp [setActive, storeGet, hk, hj, ih]

theorem keys_setActive {b : Bool} {i : Nat} {s : List (Nat × Edge)} :
    (setActive b i s).map Prod.fst = s.map Prod.fst := by
  induction s with
  | nil => simp [setActive]
  | cons hd t ih =>
    obtain ⟨k, e⟩ := hd
    by_cases hk : k = i <;> simp [setActive, hk, ih]

theorem storeGet_clearMap {j : Nat} {s : List (Nat × Edge)} :
    storeGet j (s.map (fun pr => (pr.1, { pr.2 with active := false }))) =
      (storeGet j s).map (fun e => { e with active := false }) := by
  induction s with
  | nil => simp [storeGet]
  | cons hd t ih =>
    obtain ⟨k, e⟩ := hd
    by_cases hk : k = j <;> simp [storeGet, hk, ih]

theorem keys_filter_key {s : List (Nat × Edge)} {f : Nat → Bool} :
    (s.filter (fun pr => f pr.1)).map Prod.fst = (s.map Prod.fst).filter f := by
  induction s with
  | nil => simp
  | cons hd t ih =>
    obtain ⟨k, e⟩ := hd
    rcases hk : f k with _ | _ <;> simp [List.filter_cons, hk, ih]

theorem alGet_alUpdate {p q : PKey} {f : List Nat → List Nat}
    {l : List (PKey × List Nat)} :
    alGet q (alUpdate p f l) =
      if q = p then f (alGet p l) else alGet q l := by
  induction l with
  | nil =>
    by_cases h : q = p
    · subst h; simp [alGet, alUpdate]
    · simp [alGet, alUpdate, h, Ne.symm h]
  | cons hd t ih =>
    obtain ⟨r, v⟩ := hd
    by_cases hr : r = p
    · subst hr
      by_cases hq : r = q
      · subst hq; simp [alGet, alUpdate]
      · simp [alGet, alUpdate, hq, Ne.symm hq, ih]
    · by_cases hq : r = q
      · subst hq
        simp [alGet, alUpdate, hr, Ne.symm hr]
      · simp [alGet, alUpdate, hr, hq, ih]

theorem alGet_map_filter {p : PKey} {f : Nat → Bool}
    {l : List (PKey × List Nat)} :
    alGet p (l.map (fun pr => (pr.1, pr.2.filter f))) =
      (alGet p l).filter f := by
  induction l with
  | nil => simp [alGet]
  | cons hd t ih =>
    obtain ⟨r, v⟩ := hd
    by_cases hr : r = p <;> simp [alGet, hr, ih]

theorem Edge.refs_iff {e : Edge} {x : String} :
    e.refs x = true ↔ (e.parent = some x ∨ e.child = x) := by
  simp [Edge.refs]

/-! ### The index well-formedness invariant (§3) -/

/-- Well-formedness of the index: live ids are unique and below the
allocation counter, pooled storage is disjoint from the live heap, and the
two mappings agree exactly with the live-edge heap — every live edge sits in
the `parent_children` bucket of its parent and in the `child_parents` inner
bucket of its child and parent, and nowhere else (the §3 invariant). -/
structure WF (idx : EdgeIndex) : Prop where
  store_nodup : (idx.store.map Prod.fst).Nodup
  store_lt : ∀ i ∈ idx.store.map Prod.fst, i < idx.nextId
  pool_nodup : (idx.pool.map Prod.fst).Nodup
  pool_lt : ∀ i ∈ idx.pool.map Prod.fst, i < idx.nextId
  pool_fresh : ∀ i ∈ idx.pool.map Prod.fst, storeGet i idx.store = none
  pc_mem : ∀ i p, i ∈ idx.parent_children p ↔
      ∃ e, storeGet i idx.store = some e ∧ e.parent = p
  pc_nodup : ∀ p, (idx.parent_children p).Nodup
  cp_mem : ∀ i c p, i ∈ alGet p (idx.child_parents c) ↔
      ∃ e, storeGet i idx.store = some e ∧ e.child = c ∧ e.parent = p
  cp_nodup : ∀ c p, (alGet p (idx.child_parents c)).Nodup

theorem WF_empty : WF emptyIndex := by
  constructor <;> simp [emptyIndex, storeGet, alGet]

/-- The id chosen by `insert_edge` is not live before the insertion. -/
theorem insert_fresh {idx : EdgeIndex} (h : WF idx) {p : PKey} {c : String}
    {t : Mat} {o : db_op_t} :
    storeGet (insert_edge idx p c t o).2 idx.store = none := by
  rcases hp : idx.pool with _ | ⟨⟨j, pe⟩, tl⟩
  · simp only [insert_edge, hp]
    rw [storeGet_eq_none_iff]
    intro hm
    exact absurd (h.store_lt _ hm) (lt_irrefl _)
  · simp only [insert_edge, hp]
    exact h.pool_fresh j (by simp [hp])

theorem storeGet_cons_self {i : Nat} {e : Edge} {s : List (Nat × Edge)} :
    storeGet i ((i, e) :: s) = some e := by
  simp [storeGet]

theorem storeGet_cons_ne {i m : Nat} (h : i ≠ m) {e : Edge}
    {s : List (Nat × Edge)} : storeGet m ((i, e) :: s) = storeGet m s := by
  simp [storeGet, h]

theorem WF_insert_core {idx : EdgeIndex} (h : WF idx) {p : PKey} {c : String}
    {t : Mat} {o : db_op_t} {i : Nat} {pool' : List (Nat × Edge)} {n' : Nat}
    (hfresh : storeGet i idx.store = none)
    (hstore_lt : ∀ k ∈ idx.store.map Prod.fst, k < n')
    (hi : i < n')
    (hpn : (pool'.map Prod.fst).Nodup)
    (hplt : ∀ k ∈ pool'.map Prod.fst, k < n')
    (hpf : ∀ k ∈ pool'.map Prod.fst, storeGet k idx.store = none)
    (hpi : ∀ k ∈ pool'.map Prod.fst, k ≠ i) :
    WF { store := (i, { parent := p, child := c, transform := t, op := o,
                        active := false }) :: idx.store
         parent_children := fun q =>
           if q = p then idx.parent_children p ++ [i]
           else idx.parent_children q
         child_parents := fun c' =>
           if c' = c then alUpdate p (fun l => l ++ [i]) (idx.child_parents c)
           else idx.child_parents c'
         pool := pool'
         nextId := n' } := by
  have hnotin : i ∉ idx.store.map Prod.fst := by
    rw [← storeGet_eq_none_iff]; exact hfresh
  have hpcnot : ∀ q, i ∉ idx.parent_children q := by
    intro q hmem
    rcases (h.pc_mem i q).1 hmem with ⟨e, he, _⟩
    rw [hfresh] at he; exact Option.noConfusion he
  have hcpnot : ∀ c' q, i ∉ alGet q (idx.child_parents c') := by
    intro c' q hmem
    rcases (h.cp_mem i c' q).1 hmem with ⟨e, he, _⟩
    rw [hfresh] at he; exact Option.noConfusion he
  constructor
  · simp only [List.map_cons, List.nodup_cons]
    exact ⟨hnotin, h.store_nodup⟩
  · intro k hk
    simp only [List.map_cons, List.mem_cons] at hk
    rcases hk with hk | hk
    · subst hk; exact hi
    · exact hstore_lt _ hk
  · exact hpn
  · exact hplt
  · intro k hk
    dsimp only
    rw [storeGet_cons_ne (fun hik => (hpi k hk) hik.symm)]
    exact hpf k hk
  · intro m q
    dsimp only
    by_cases hm : m = i
    · subst hm
      rw [storeGet_cons_self]
      by_cases hq : q = p
      · rw [if_pos hq]
        constructor
        · intro _
          exact ⟨_, rfl, hq.symm⟩
        · intro _
          simp
      · rw [if_neg hq]
        constructor
        · intro hmem; exact absurd hmem (hpcnot q)
        · rintro ⟨e', he', hpar⟩
          cases he'
          exact absurd hpar.symm hq
    · have him : i ≠ m := fun hh => hm hh.symm
      rw [storeGet_cons_ne him]
      by_cases hq : q = p
      · rw [if_pos hq, List.mem_append]
        constructor
        · rintro (hmem | hmem)
          · rcases (h.pc_mem m p).1 hmem with ⟨e, he, hpe⟩
            exact ⟨e, he, hpe.trans hq.symm⟩
          · rw [List.mem_singleton] at hmem
            exact absurd hmem hm
        · rintro ⟨e, he, hpe⟩
          left
          exact (h.pc_mem m p).2 ⟨e, he, hpe.trans hq⟩
      · rw [if_neg hq]
        exact h.pc_mem m q
  · intro q
    dsimp only
    by_cases hq : q = p
    · rw [if_pos hq, List.nodup_append]
      refine ⟨h.pc_nodup p, List.nodup_singleton i, ?_⟩
      intro a ha hb
      rw [List.mem_singleton] at hb
      subst hb
      exact hpcnot p ha
    · rw [if_neg hq]
      exact h.pc_nodup q
  · intro m c' q
    dsimp only
    by_cases hc : c' = c
    · rw [if_pos hc, alGet_alUpdate]
      by_cases hm : m = i
      · subst hm
        rw [storeGet_cons_self]
        by_cases hq : q = p
        · rw [if_pos hq]
          constructor
          · intro _
            exact ⟨_, rfl, hc.symm, hq.symm⟩
          · intro _
            simp
        · rw [if_neg hq]
          constructor
          · intro hmem; exact absurd hmem (hcpnot c q)
          · rintro ⟨e', he', _, hpar⟩
            cases he'
            exact absurd hpar.symm hq
      · have him : i ≠ m := fun hh => hm hh.symm
        rw [storeGet_cons_ne him]
        by_cases hq : q = p
        · rw [if_pos hq, List.mem_append]
          constructor
          · rintro (hmem | hmem)
            · rcases (h.cp_mem m c p).1 hmem with ⟨e, he, hce, hpe⟩
              exact ⟨e, he, hce.trans hc.symm, hpe.trans hq.symm⟩
            · rw [List.mem_singleton] at hmem
              exact absurd hmem hm
          · rintro ⟨e, he, hce, hpe⟩
            left
            exact (h.cp_mem m c p).2 ⟨e, he, hce.trans hc, hpe.trans hq⟩
        · rw [if_neg hq]
          constructor
          · intro hmem
            rcases (h.cp_mem m c q).1 hmem with ⟨e, he, hce, hpe⟩
            exact ⟨e, he, hce.trans hc.symm, hpe⟩
          · rintro ⟨e, he, hce, hpe⟩
            exact (h.cp_mem m c q).2 ⟨e, he, hce.trans hc, hpe⟩
    · rw [if_neg hc]
      by_cases hm : m = i
      · subst hm
        rw [storeGet_cons_self]
        constructor
        · intro hmem; exact absurd hmem (hcpnot c' q)
        · rintro ⟨e', he', hch, _⟩
          cases he'
          exact absurd hch.symm hc
      · have him : i ≠ m := fun hh => hm hh.symm
        rw [storeGet_cons_ne him]
        exact h.cp_mem m c' q
  · intro c' q
    dsimp only
    by_cases hc : c' = c
    · rw [if_pos hc, alGet_alUpdate]
      by_cases hq : q = p
      · rw [if_pos hq, List.nodup_append]
        refine ⟨h.cp_nodup c p, List.nodup_singleton i, ?_⟩
        intro a ha hb
        rw [List.mem_singleton] at hb
        subst hb
        exact hcpnot c p ha
      · rw [if_neg hq]
        exact h.cp_nodup c q
    · rw [if_neg hc]
      exact h.cp_nodup c' q

theorem WF_insert {idx : EdgeIndex} (h : WF idx) {p : PKey} {c : String}
    {t : Mat} {o : db_op_t} : WF (insert_edge idx p c t o).1 := by
  have hfresh := insert_fresh h (p := p) (c := c) (t := t) (o := o)
  rcases hp : idx.pool with _ | ⟨⟨j, pe⟩, tl⟩
  · simp only [insert_edge, hp] at hfresh ⊢
    refine WF_insert_core h hfresh ?_ ?_ ?_ ?_ ?_ ?_
    · intro k hk; exact Nat.lt_succ_of_lt (h.store_lt _ hk)
    · exact Nat.lt_succ_self _
    · simp
    · simp
    · simp
    · simp
  · simp only [insert_edge, hp] at hfresh ⊢
    have htl : ∀ k ∈ tl.map Prod.fst, k ∈ idx.pool.map Prod.fst := by
      intro k hk; simp [hp, hk]
    refine WF_insert_core h hfresh ?_ ?_ ?_ ?_ ?_ ?_
    · exact h.store_lt
    · exact h.pool_lt j (by simp [hp])
    · have := h.pool_nodup
      rw [hp] at this
      simp only [List.map_cons, List.nodup_cons] at this
      exact this.2
    · intro k hk; exact h.pool_lt k (htl k hk)
    · intro k hk; exact h.pool_fresh k (htl k hk)
    · intro k hk
      have := h.pool_nodup
      rw [hp] at this
      simp only [List.map_cons, List.nodup_cons] at this
      intro hkj; subst hkj
      exact this.1 hk

theorem WF_remove {idx : EdgeIndex} (h : WF idx) {i : Nat} :
    WF (remove_edge idx i) := by
  rcases hg : storeGet i idx.store with _ | e
  · simp only [remove_edge, hg]
    exact h
  · simp only [remove_edge, hg]
    have hkeys : (idx.store.filter (fun pr => pr.1 != i)).map Prod.fst
        = (idx.store.map Prod.fst).filter (fun j => j != i) :=
      keys_filter_key (s := idx.store) (f := fun j => j != i)
    have hget : ∀ j, storeGet j (idx.store.filter (fun pr => pr.1 != i)) =
        if j = i then none else storeGet j idx.store := by
      intro j
      rw [storeGet_filter h.store_nodup]
      by_cases hj : j = i
      · subst hj
        rw [if_pos rfl]
        rcases storeGet j idx.store with _ | e' <;> simp
      · rw [if_neg hj]
        rcases hs : storeGet j idx.store with _ | e' <;> simp [bne_iff_ne, hj]
    constructor
    · rw [hkeys]; exact h.store_nodup.filter _
    · intro k hk
      rw [hkeys] at hk
      exact h.store_lt k (List.mem_of_mem_filter hk)
    · simp only [List.map_cons, List.nodup_cons]
      constructor
      · intro hk
        have := h.pool_fresh i hk
        rw [hg] at this; exact Option.noConfusion this
      · exact h.pool_nodup
    · intro k hk
      simp only [List.map_cons, List.mem_cons] at hk
      rcases hk with hk | hk
      · rw [hk]
        exact h.store_lt i (storeGet_isSome_iff.1 ⟨e, hg⟩)
      · exact h.pool_lt k hk
    · intro k hk
      simp only [List.map_cons, List.mem_cons] at hk
      rw [hget k]
      rcases hk with hk | hk
      · rw [if_pos hk]
      · by_cases hki : k = i
        · rw [if_pos hki]
        · rw [if_neg hki]; exact h.pool_fresh k hk
    · intro j q
      dsimp only
      rw [hget j]
      by_cases hj : j = i
      · subst hj
        rw [if_pos rfl]
        by_cases hq : q = e.parent
        · rw [if_pos hq]
          simp [List.mem_filter]
        · rw [if_neg hq]
          constructor
          · intro hmem
            rcases (h.pc_mem j q).1 hmem with ⟨e'', he'', hpe⟩
            rw [hg] at he''; cases he''
            exact absurd hpe.symm hq
          · rintro ⟨e', he', _⟩; exact Option.noConfusion he'
      · rw [if_neg hj]
        by_cases hq : q = e.parent
        · rw [if_pos hq, List.mem_filter, h.pc_mem j q]
          simp [hj]
        · rw [if_neg hq]
          exact h.pc_mem j q
    · intro q
      dsimp only
      by_cases hq : q = e.parent
      · rw [if_pos hq]; exact (h.pc_nodup q).filter _
      · rw [if_neg hq]; exact h.pc_nodup q
    · intro j c' q
      dsimp only
      rw [hget j]
      by_cases hc : c' = e.child
      · rw [if_pos hc, alGet_alUpdate]
        by_cases hj : j = i
        · subst hj
          rw [if_pos rfl]
          by_cases hq : q = e.parent
          · rw [if_pos hq]
            simp [List.mem_filter]
          · rw [if_neg hq]
            constructor
            · intro hmem
              rcases (h.cp_mem j c' q).1 hmem with ⟨e'', he'', _, hpe⟩
              rw [hg] at he''; cases he''
              exact absurd hpe.symm hq
            · rintro ⟨e', he', _⟩; exact Option.noConfusion he'
        · rw [if_neg hj]
          by_cases hq : q = e.parent
          · subst hq
            rw [if_pos rfl, List.mem_filter, h.cp_mem j c' _]
            simp [hj]
          · rw [if_neg hq]
            exact h.cp_mem j c' q
      · rw [if_neg hc]
        by_cases hj : j = i
        · subst hj
          rw [if_pos rfl]
          constructor
          · intro hmem
            rcases (h.cp_mem j c' q).1 hmem with ⟨e'', he'', hce, _⟩
            rw [hg] at he''; cases he''
            exact absurd hce.symm hc
          · rintro ⟨e', he', _⟩; exact Option.noConfusion he'
        · rw [if_neg hj]
          exact h.cp_mem j c' q
    · intro c' q
      dsimp only
      by_cases hc : c' = e.child
      · rw [if_pos hc, alGet_alUpdate]
        by_cases hq : q = e.parent
        · rw [if_pos hq]; exact (h.cp_nodup c' _).filter _
        · rw [if_neg hq]; exact h.cp_nodup c' q
      · rw [if_neg hc]; exact h.cp_nodup c' q

theorem keys_filter_subset {s : List (Nat × Edge)} {q : Nat × Edge → Bool} :
    ((s.filter q).map Prod.fst).Sublist (s.map Prod.fst) :=
  (List.filter_sublist s).map Prod.fst

theorem mem_keys_filter {s : List (Nat × Edge)}
    (h : (s.map Prod.fst).Nodup) (q : Nat × Edge → Bool) {j : Nat} :
    j ∈ (s.filter q).map Prod.fst ↔
      ∃ e, storeGet j s = some e ∧ q (j, e) = true := by
  rw [← storeGet_isSome_iff]
  constructor
  · rintro ⟨e, he⟩
    rw [storeGet_filter h q] at he
    rcases hs : storeGet j s with _ | e0
    · rw [hs] at he; exact Option.noConfusion he
    · rw [hs] at he
      rw [Option.some_bind] at he
      rcases hq : q (j, e0) with _ | _
      · rw [hq] at he; simp at he
      · exact ⟨e0, rfl, hq⟩
  · rintro ⟨e, he, hq⟩
    refine ⟨e, ?_⟩
    rw [storeGet_filter h q, he]
    simp [hq]

theorem keys_map_snd {l : List (Nat × Edge)} {g : Nat × Edge → Edge} :
    (l.map (fun pr => (pr.1, g pr))).map Prod.fst = l.map Prod.fst := by
  induction l with
  | nil => simp
  | cons hd t ih => simp [ih]

theorem WF_removeAll {idx : EdgeIndex} (h : WF idx) {x : String} :
    WF (remove_all_for idx x) := by
  have hvic : ∀ j, j ∈ (idx.store.filter (fun pr => pr.2.refs x)).map Prod.fst
      ↔ ∃ e, storeGet j idx.store = some e ∧ e.refs x = true := by
    intro j
    exact mem_keys_filter h.store_nodup (fun pr => pr.2.refs x)
  have hgetF : ∀ j, storeGet j (idx.store.filter (fun pr => !(pr.2.refs x)))
      = (storeGet j idx.store).bind
          (fun e => if e.refs x then none else some e) := by
    intro j
    rw [storeGet_filter h.store_nodup]
    rcases hs : storeGet j idx.store with _ | e0
    · simp
    · rcases hq : e0.refs x with _ | _ <;> simp [hq]
  have hvicNodup :
      ((idx.store.filter (fun pr => pr.2.refs x)).map Prod.fst).Nodup :=
    h.store_nodup.sublist keys_filter_subset
  simp only [remove_all_for]
  constructor
  · exact h.store_nodup.sublist keys_filter_subset
  · intro k hk
    have : k ∈ idx.store.map Prod.fst := keys_filter_subset.subset hk
    exact h.store_lt k this
  · rw [List.map_append, List.nodup_append, keys_map_snd]
    refine ⟨hvicNodup, h.pool_nodup, ?_⟩
    intro a ha hb
    rcases (hvic a).1 ha with ⟨e, he, _⟩
    have := h.pool_fresh a hb
    rw [he] at this
    exact Option.noConfusion this
  · intro k hk
    rw [List.map_append, keys_map_snd, List.mem_append] at hk
    rcases hk with hk | hk
    · have : k ∈ idx.store.map Prod.fst :=
        keys_filter_subset.subset ((hvic k).2 ((hvic k).1 hk))
      exact h.store_lt k this
    · exact h.pool_lt k hk
  · intro k hk
    rw [List.map_append, keys_map_snd, List.mem_append] at hk
    rw [hgetF k]
    rcases hk with hk | hk
    · rcases (hvic k).1 hk with ⟨e, he, hq⟩
      rw [he]
      simp [hq]
    · rw [h.pool_fresh k hk]
      rfl
  · intro j q
    dsimp only
    rw [List.mem_filter, hgetF j, h.pc_mem j q]
    rcases hs : storeGet j idx.store with _ | e0
    · simp
    · rw [Option.some_bind]
      rcases hq : e0.refs x with _ | _
      · rw [if_neg Bool.false_ne_true]
        constructor
        · rintro ⟨⟨e, he, hp⟩, _⟩
          exact ⟨e, he, hp⟩
        · rintro ⟨e, he, hp⟩
          refine ⟨⟨e, he, hp⟩, ?_⟩
          rw [Bool.not_eq_true', decide_eq_false_iff_not]
          intro hmem
          rcases (hvic j).1 hmem with ⟨e', he', hq'⟩
          rw [hs] at he'
          cases he'
          rw [hq] at hq'
          exact Bool.false_ne_true hq'
      · rw [if_pos rfl]
        constructor
        · rintro ⟨⟨e, he, _⟩, hnv⟩
          exfalso
          rw [Bool.not_eq_true', decide_eq_false_iff_not] at hnv
          exact hnv ((hvic j).2 ⟨e0, hs, hq⟩)
        · rintro ⟨e, he, _⟩
          exact Option.noConfusion he
  · intro q
    dsimp only
    exact (h.pc_nodup q).filter _
  · intro j c' q
    dsimp only
    rw [alGet_map_filter, List.mem_filter, hgetF j, h.cp_mem j c' q]
    rcases hs : storeGet j idx.store with _ | e0
    · simp
    · rw [Option.some_bind]
      rcases hq : e0.refs x with _ | _
      · rw [if_neg Bool.false_ne_true]
        constructor
        · rintro ⟨⟨e, he, hc, hp⟩, _⟩
          exact ⟨e, he, hc, hp⟩
        · rintro ⟨e, he, hc, hp⟩
          refine ⟨⟨e, he, hc, hp⟩, ?_⟩
          rw [Bool.not_eq_true', decide_eq_false_iff_not]
          intro hmem
          rcases (hvic j).1 hmem with ⟨e', he', hq'⟩
          rw [hs] at he'
          cases he'
          rw [hq] at hq'
          exact Bool.false_ne_true hq'
      · rw [if_pos rfl]
        constructor
        · rintro ⟨⟨e, he, _, _⟩, hnv⟩
          exfalso
          rw [Bool.not_eq_true', decide_eq_false_iff_not] at hnv
          exact hnv ((hvic j).2 ⟨e0, hs, hq⟩)
        · rintro ⟨e, he, _, _⟩
          exact Option.noConfusion he
  · intro c' q
    dsimp only
    rw [alGet_map_filter]
    exact (h.cp_nodup c' q).filter _

/-! ### Activation only raises `active` flags -/

/-- Relation between a heap and the same heap after some `active` flags were
raised: keys are unchanged and every entry is either untouched or has its
`active` flag set. -/
def StoreRelax (s t : List (Nat × Edge)) : Prop :=
  t.map Prod.fst = s.map Prod.fst ∧
  ∀ j, storeGet j t = storeGet j s ∨
       storeGet j t = (storeGet j s).map (fun e => { e with active := true })

theorem StoreRelax.rfl (s : List (Nat × Edge)) : StoreRelax s s :=
  ⟨Eq.refl _, fun _ => Or.inl (Eq.refl _)⟩

theorem StoreRelax.trans {s t u : List (Nat × Edge)}
    (h1 : StoreRelax s t) (h2 : StoreRelax t u) : StoreRelax s u := by
  refine ⟨h2.1.trans h1.1, ?_⟩
  intro j
  rcases h2.2 j with h | h <;> rcases h1.2 j with h' | h'
  · exact Or.inl (h.trans h')
  · rw [h'] at h; exact Or.inr h
  · rw [h'] at h; exact Or.inr h
  · rw [h'] at h
    right
    rw [h]
    rcases storeGet j s with _ | e
    · rfl
    · rfl

theorem StoreRelax.setActiveStep {s : List (Nat × Edge)} (i : Nat) :
    StoreRelax s (setActive true i s) := by
  refine ⟨keys_setActive, ?_⟩
  intro j
  rw [storeGet_setActive]
  by_cases hj : j = i
  · rw [if_pos hj]; exact Or.inr (Eq.refl _)
  · rw [if_neg hj]; exact Or.inl (Eq.refl _)

theorem StoreRelax.fold (ids : List Nat) (s : List (Nat × Edge))
    (acc : List Nat) :
    StoreRelax s
      (ids.foldl
        (fun sa i =>
          if i ∈ sa.2 then sa else (setActive true i sa.1, sa.2 ++ [i]))
        (s, acc)).1 := by
  induction ids generalizing s acc with
  | nil => exact StoreRelax.rfl s
  | cons i t ih =>
    simp only [List.foldl_cons]
    by_cases hi : i ∈ acc
    · rw [if_pos hi]
      exact ih s acc
    · rw [if_neg hi]
      exact StoreRelax.trans (StoreRelax.setActiveStep i) (ih _ _)

theorem bfs_spec {fuel : Nat} {q v : List String} {idx idx' : EdgeIndex}
    {acc out : List Nat} (h : bfs fuel q v idx acc = some (idx', out)) :
    idx'.parent_children = idx.parent_children ∧
    idx'.child_parents = idx.child_parents ∧
    idx'.pool = idx.pool ∧ idx'.nextId = idx.nextId ∧
    StoreRelax idx.store idx'.store := by
  induction fuel generalizing q v idx acc with
  | zero =>
    rcases q with _ | ⟨c, qs⟩
    · simp only [bfs] at h
      cases h
      exact ⟨Eq.refl _, Eq.refl _, Eq.refl _, Eq.refl _, StoreRelax.rfl _⟩
    · simp [bfs] at h
  | succ n ih =>
    rcases q with _ | ⟨c, qs⟩
    · simp only [bfs] at h
      cases h
      exact ⟨Eq.refl _, Eq.refl _, Eq.refl _, Eq.refl _, StoreRelax.rfl _⟩
    · simp only [bfs] at h
      have hcomp := ih h
      exact ⟨hcomp.1, hcomp.2.1, hcomp.2.2.1, hcomp.2.2.2.1,
        StoreRelax.trans (StoreRelax.fold _ _ _) hcomp.2.2.2.2⟩

theorem activate_spec {idx idx' : EdgeIndex} {i : Nat} {out : List Nat}
    (h : activate_ancestors idx i = some (idx', out)) :
    idx'.parent_children = idx.parent_children ∧
    idx'.child_parents = idx.child_parents ∧
    idx'.pool = idx.pool ∧ idx'.nextId = idx.nextId ∧
    StoreRelax idx.store idx'.store := by
  rcases hg : storeGet i idx.store with _ | e
  · simp only [activate_ancestors, hg] at h
    exact Option.noConfusion h
  · simp only [activate_ancestors, hg] at h
    rcases hp : e.parent with _ | p
    · rw [hp] at h
      cases h
      exact ⟨Eq.refl _, Eq.refl _, Eq.refl _, Eq.refl _,
        StoreRelax.setActiveStep i⟩
    · rw [hp] at h
      have hcomp := bfs_spec h
      exact ⟨hcomp.1, hcomp.2.1, hcomp.2.2.1, hcomp.2.2.2.1,
        StoreRelax.trans (StoreRelax.setActiveStep i) hcomp.2.2.2.2⟩

theorem WF_relax {idx idx' : EdgeIndex} (h : WF idx)
    (hpc : idx'.parent_children = idx.parent_children)
    (hcp : idx'.child_parents = idx.child_parents)
    (hpool : idx'.pool = idx.pool) (hn : idx'.nextId = idx.nextId)
    (hr : StoreRelax idx.store idx'.store) : WF idx' := by
  constructor
  · rw [hr.1]; exact h.store_nodup
  · intro k hk
    rw [hr.1] at hk
    rw [hn]
    exact h.store_lt k hk
  · rw [hpool]; exact h.pool_nodup
  · intro k hk
    rw [hpool] at hk
    rw [hn]
    exact h.pool_lt k hk
  · intro k hk
    rw [hpool] at hk
    rcases hr.2 k with hh | hh
    · rw [hh]; exact h.pool_fresh k hk
    · rw [hh, h.pool_fresh k hk]; rfl
  · intro j p
    rw [hpc, h.pc_mem j p]
    constructor
    · rintro ⟨e, he, hpe⟩
      rcases hr.2 j with hh | hh
      · exact ⟨e, by rw [hh, he], hpe⟩
      · exact ⟨{ e with active := true }, by rw [hh, he]; rfl, hpe⟩
    · rintro ⟨e, he, hpe⟩
      rcases hr.2 j with hh | hh
      · rw [hh] at he; exact ⟨e, he, hpe⟩
      · rw [hh] at he
        rcases hs : storeGet j idx.store with _ | e1
        · rw [hs] at he; exact Option.noConfusion he
        · rw [hs] at he
          cases he
          exact ⟨e1, rfl, hpe⟩
  · intro p
    rw [hpc]
    exact h.pc_nodup p
  · intro j c q
    rw [hcp, h.cp_mem j c q]
    constructor
    · rintro ⟨e, he, hce, hpe⟩
      rcases hr.2 j with hh | hh
      · exact ⟨e, by rw [hh, he], hce, hpe⟩
      · exact ⟨{ e with active := true }, by rw [hh, he]; rfl, hce, hpe⟩
    · rintro ⟨e, he, hce, hpe⟩
      rcases hr.2 j with hh | hh
      · rw [hh] at he; exact ⟨e, he, hce, hpe⟩
      · rw [hh] at he
        rcases hs : storeGet j idx.store with _ | e1
        · rw [hs] at he; exact Option.noConfusion he
        · rw [hs] at he
          cases he
          exact ⟨e1, rfl, hce, hpe⟩
  · intro c q
    rw [hcp]
    exact h.cp_nodup c q

theorem WF_clear {idx : EdgeIndex} (h : WF idx) : WF (clear_activation idx) := by
  have hkeys : (clear_activation idx).store.map Prod.fst
      = idx.store.map Prod.fst :=
    keys_map_snd (g := fun pr => { pr.2 with active := false })
  have hget : ∀ j, storeGet j (clear_activation idx).store
      = (storeGet j idx.store).map (fun e => { e with active := false }) :=
    fun _ => storeGet_clearMap
  constructor
  · rw [hkeys]; exact h.store_nodup
  · intro k hk
    rw [hkeys] at hk
    exact h.store_lt k hk
  · exact h.pool_nodup
  · exact h.pool_lt
  · intro k hk
    rw [hget k, h.pool_fresh k hk]
    rfl
  · intro j p
    have := h.pc_mem j p
    rw [show (clear_activation idx).parent_children = idx.parent_children
      from Eq.refl _]
    rw [this, hget j]
    constructor
    · rintro ⟨e, he, hpe⟩
      exact ⟨{ e with active := false }, by rw [he]; rfl, hpe⟩
    · rintro ⟨e, he, hpe⟩
      rcases hs : storeGet j idx.store with _ | e1
      · rw [hs] at he; exact Option.noConfusion he
      · rw [hs] at he
        cases he
        exact ⟨e1, rfl, hpe⟩
  · exact h.pc_nodup
  · intro j c q
    have := h.cp_mem j c q
    rw [show (clear_activation idx).child_parents = idx.child_parents
      from Eq.refl _]
    rw [this, hget j]
    constructor
    · rintro ⟨e, he, hce, hpe⟩
      exact ⟨{ e with active := false }, by rw [he]; rfl, hce, hpe⟩
    · rintro ⟨e, he, hce, hpe⟩
      rcases hs : storeGet j idx.store with _ | e1
      · rw [hs] at he; exact Option.noConfusion he
      · rw [hs] at he
        cases he
        exact ⟨e1, rfl, hce, hpe⟩
  · exact h.cp_nodup

theorem WF_applyOp {idx : EdgeIndex} (h : WF idx) (op : Op) :
    WF (applyOp idx op) := by
  cases op with
  | insert p c t o => exact WF_insert h
  | remove i => exact WF_remove h
  | removeAll x => exact WF_removeAll h
  | activate i =>
    simp only [applyOp]
    rcases ha : activate_ancestors idx i with _ | ⟨idx', out⟩
    · exact h
    · have hc := activate_spec ha
      exact WF_relax h hc.1 hc.2.1 hc.2.2.1 hc.2.2.2.1 hc.2.2.2.2
  | clear => exact WF_clear h

/-- Every index state reachable through the public operations is
well-formed. -/
theorem Reachable_WF {idx : EdgeIndex} (h : Reachable idx) : WF idx := by
  induction h with
  | empty => exact WF_empty
  | step op _ ih => exact WF_applyOp ih op

/-! ### Concrete example states used by the claim witnesses -/

/-- The A→B→C→D chain of the spec's activation-closure property, built by
three insertions into the empty index (edge ids 0, 1, 2). -/
def exChain : EdgeIndex :=
  (insert_edge
    (insert_edge
      (insert_edge emptyIndex (some "A") "B" [] db_op_t.DB_OP_UNION).1
      (some "B") "C" [] db_op_t.DB_OP_UNION).1
    (some "C") "D" [] db_op_t.DB_OP_UNION).1

theorem exChain_WF : WF exChain :=
  WF_insert (WF_insert (WF_insert WF_empty))

/-- Every edge returned by a query against the post-`remove_all_for` store
does not reference the removed entry. -/
theorem removeAll_get_clean {idx : EdgeIndex} {x : String} {i : Nat} {e : Edge}
    (hget : storeGet i (remove_all_for idx x).store = some e) :
    e.parent ≠ some x ∧ e.child ≠ x := by
  have hmem : (i, e) ∈ idx.store.filter (fun pr => !(pr.2.refs x)) :=
    mem_of_storeGet hget
  obtain ⟨_, h3⟩ := List.mem_filter.1 hmem
  rw [Bool.not_eq_true'] at h3
  have hru : ¬ (e.refs x = true) := by
    rw [h3]; exact Bool.false_ne_true
  constructor
  · intro hp; exact hru (Edge.refs_iff.2 (Or.inl hp))
  · intro hc; exact hru (Edge.refs_iff.2 (Or.inr hc))

/-! ### Claim theorems -/

/-- C1: Mapping duality — for every index state reachable through the public
operations and every live edge (id `i` holding edge `e`), `i` sits in the
`parent_children` bucket of `e.parent` and in no other bucket, sits in the
`child_parents` inner bucket keyed by `e.child` then `e.parent` and in no
other inner bucket, and consequently `e` appears in `children_of e.parent`
and in `parents_of e.child e.parent`. -/
theorem C1_mapping_duality {idx : EdgeIndex} (h : Reachable idx) {i : Nat}
    {e : Edge} (he : storeGet i idx.store = some e) :
    i ∈ idx.parent_children e.parent ∧
    (∀ p, i ∈ idx.parent_children p → p = e.parent) ∧
    i ∈ alGet e.parent (idx.child_parents e.child) ∧
    (∀ c p, i ∈ alGet p (idx.child_parents c) → c = e.child ∧ p = e.parent) ∧
    e ∈ children_of idx e.parent ∧
    e ∈ parents_of idx e.child e.parent := by
  have hw := Reachable_WF h
  have h1 : i ∈ idx.parent_children e.parent :=
    (hw.pc_mem i e.parent).2 ⟨e, he, rfl⟩
  have h3 : i ∈ alGet e.parent (idx.child_parents e.child) :=
    (hw.cp_mem i e.child e.parent).2 ⟨e, he, rfl, rfl⟩
  refine ⟨h1, ?_, h3, ?_, ?_, ?_⟩
  · intro p hp
    rcases (hw.pc_mem i p).1 hp with ⟨e', he', hpe⟩
    rw [he] at he'
    cases he'
    exact hpe.symm
  · intro c p hp
    rcases (hw.cp_mem i c p).1 hp with ⟨e', he', hce, hpe⟩
    rw [he] at he'
    cases he'
    exact ⟨hce.symm, hpe.symm⟩
  · exact List.mem_filterMap.2 ⟨i, h1, he⟩
  · exact List.mem_filterMap.2 ⟨i, h3, he⟩

theorem C1_mapping_duality_witness :
    0 ∈ exChain.parent_children (some "A") ∧
    (⟨some "A", "B", [], db_op_t.DB_OP_UNION, false⟩ : Edge) ∈
      children_of exChain (some "A") := by
  have hr : Reachable exChain :=
    Reachable.step (Op.insert (some "C") "D" [] db_op_t.DB_OP_UNION)
      (Reachable.step (Op.insert (some "B") "C" [] db_op_t.DB_OP_UNION)
        (Reachable.step (Op.insert (some "A") "B" [] db_op_t.DB_OP_UNION)
          Reachable.empty))
  have h := C1_mapping_duality hr
    (i := 0) (e := ⟨some "A", "B", [], db_op_t.DB_OP_UNION, false⟩) (by decide)
  exact ⟨h.1, h.2.2.2.2.1⟩

/-- C5: Retirement completeness — after `remove_all_for x`, no query through
`children_of` or `parents_of` returns an edge referencing `x` as parent or
child (for any index state, any parent key, any child key). -/
theorem C5_retirement_completeness (idx : EdgeIndex) (x : String) :
    (∀ p, ∀ e ∈ children_of (remove_all_for idx x) p,
      e.parent ≠ some x ∧ e.child ≠ x) ∧
    (∀ c p, ∀ e ∈ parents_of (remove_all_for idx x) c p,
      e.parent ≠ some x ∧ e.child ≠ x) := by
  constructor
  · intro p e he
    rcases List.mem_filterMap.1 he with ⟨i, _, hget⟩
    exact removeAll_get_clean hget
  · intro c p e he
    rcases List.mem_filterMap.1 he with ⟨i, _, hget⟩
    exact removeAll_get_clean hget

theorem C5_retirement_completeness_witness :
    (⟨some "C", "D", [], db_op_t.DB_OP_UNION, false⟩ : Edge).parent ≠
        some "B" ∧
    (⟨some "C", "D", [], db_op_t.DB_OP_UNION, false⟩ : Edge).child ≠ "B" :=
  (C5_retirement_completeness exChain "B").1 (some "C")
    ⟨some "C", "D", [], db_op_t.DB_OP_UNION, false⟩ (by decide)

/-- C7: Reconciliation idempotence — running `reconcile` twice in succession
with no intervening notifications leaves exactly the state of the first run
(same edge set, same `active` flags), and each `reconcile` clears both the
dirty-entry set and the topology-stale flag. -/
theorem C7_reconcile_idempotent (t : ChangeTracker) (allEntries : List String)
    (discover : String → Rels) :
    reconcile (reconcile t allEntries discover) allEntries discover
      = reconcile t allEntries discover ∧
    (reconcile t allEntries discover).dirty_entries = [] ∧
    (reconcile t allEntries discover).topology_stale = false :=
  ⟨rfl, rfl, rfl⟩

/-- C9: every default-constructed `QgInstance` starts structurally empty and
inactive — `parent` and `dp` are null, `op` is `DB_OP_NULL`, `active` is `0`
(whatever value the uninitialized matrix `m` holds). -/
theorem C9_default_instance (m : Mat) :
    (QgInstance.mk0 m).parent = none ∧ (QgInstance.mk0 m).dp = none ∧
    (QgInstance.mk0 m).op = db_op_t.DB_OP_NULL ∧
    (QgInstance.mk0 m).active = 0 :=
  ⟨rfl, rfl, rfl, rfl⟩

/-- C10: a freshly constructed `QgModel` starts consistent —
`need_update_nref` is `false` and the changed-entry set is empty. -/
theorem C10_fresh_model_consistent :
    QgModel.mk0.need_update_nref = false ∧ QgModel.mk0.changed_dp = [] :=
  ⟨rfl, rfl⟩

/-- C8: `remove_edge` idempotence — removing a retired edge is a no-op (the
index, hence also the pool, is unchanged), `remove_edge` composed with itself
equals a single `remove_edge`, and removing a live edge deletes it from the
heap and from both mappings and pushes its storage, `active` flag cleared,
onto the EdgePool. -/
theorem C8_remove_edge_idempotent :
    (∀ idx i, storeGet i idx.store = none → remove_edge idx i = idx) ∧
    (∀ idx i, remove_edge (remove_edge idx i) i = remove_edge idx i) ∧
    (∀ idx i e, WF idx → storeGet i idx.store = some e →
      storeGet i (remove_edge idx i).store = none ∧
      (∀ p, i ∉ (remove_edge idx i).parent_children p) ∧
      (∀ c p, i ∉ alGet p ((remove_edge idx i).child_parents c)) ∧
      (remove_edge idx i).pool = (i, { e with active := false }) :: idx.pool)
    := by
  have hretired : ∀ idx i, storeGet i idx.store = none →
      remove_edge idx i = idx := by
    intro idx i h
    simp only [remove_edge, h]
  have hgone : ∀ idx i, storeGet i (remove_edge idx i).store = none := by
    intro idx i
    rcases hg : storeGet i idx.store with _ | e
    · rw [hretired idx i hg]; exact hg
    · simp only [remove_edge, hg]
      exact storeGet_filter_self
  refine ⟨hretired, ?_, ?_⟩
  · intro idx i
    exact hretired _ i (hgone idx i)
  · intro idx i e hw hg
    refine ⟨hgone idx i, ?_, ?_, ?_⟩
    · intro p hp
      simp only [remove_edge, hg] at hp
      by_cases hq : p = e.parent
      · rw [if_pos hq, List.mem_filter] at hp
        simp at hp
      · rw [if_neg hq] at hp
        rcases (hw.pc_mem i p).1 hp with ⟨e', he', hpe⟩
        rw [hg] at he'
        cases he'
        exact hq hpe.symm
    · intro c p hp
      simp only [remove_edge, hg] at hp
      by_cases hc : c = e.child
      · rw [if_pos hc, alGet_alUpdate] at hp
        by_cases hq : p = e.parent
        · rw [if_pos hq, List.mem_filter] at hp
          simp at hp
        · rw [if_neg hq] at hp
          rcases (hw.cp_mem i c p).1 hp with ⟨e', he', _, hpe⟩
          rw [hg] at he'
          cases he'
          exact hq hpe.symm
      · rw [if_neg hc] at hp
        rcases (hw.cp_mem i c p).1 hp with ⟨e', he', hce, _⟩
        rw [hg] at he'
        cases he'
        exact hc hce.symm
    · simp only [remove_edge, hg]

theorem C8_remove_edge_idempotent_witness :
    storeGet 2 (remove_edge exChain 2).store = none ∧
    (remove_edge exChain 2).pool =
      [(2, ⟨some "C", "D", [], db_op_t.DB_OP_UNION, false⟩)] := by
  have h := C8_remove_edge_idempotent.2.2 exChain 2
    ⟨some "C", "D", [], db_op_t.DB_OP_UNION, false⟩ exChain_WF (by decide)
  exact ⟨h.1, h.2.2.2⟩

/-- C6: Edge structural immutability — whatever public operation is applied,
an edge id that is live before and after holds an edge with unchanged
`parent`, `child`, `transform` and `op`; only `active` can differ.  (A
relationship change during reconciliation goes through `remove_all_for` plus
`insert_edge`, i.e. retires the old edge and allocates a new one.) -/
theorem C6_structural_immutability {idx : EdgeIndex} (h : WF idx) (op : Op)
    {i : Nat} {e e' : Edge}
    (he : storeGet i idx.store = some e)
    (he' : storeGet i (applyOp idx op).store = some e') :
    e'.parent = e.parent ∧ e'.child = e.child ∧
    e'.transform = e.transform ∧ e'.op = e.op := by
  cases op with
  | insert p c t o =>
    have hfresh := insert_fresh h (p := p) (c := c) (t := t) (o := o)
    rcases hp : idx.pool with _ | ⟨⟨j, pe⟩, tl⟩ <;>
      simp only [insert_edge, hp] at hfresh <;>
      simp only [applyOp, insert_edge, hp] at he'
    · by_cases hni : idx.nextId = i
      · rw [hni, he] at hfresh
        exact Option.noConfusion hfresh
      · rw [storeGet_cons_ne hni, he] at he'
        cases he'
        exact ⟨rfl, rfl, rfl, rfl⟩
    · by_cases hji : j = i
      · rw [hji, he] at hfresh
        exact Option.noConfusion hfresh
      · rw [storeGet_cons_ne hji, he] at he'
        cases he'
        exact ⟨rfl, rfl, rfl, rfl⟩
  | remove k =>
    rcases hg : storeGet k idx.store with _ | e0
    · simp only [applyOp, remove_edge, hg] at he'
      rw [he] at he'
      cases he'
      exact ⟨rfl, rfl, rfl, rfl⟩
    · simp only [applyOp, remove_edge, hg] at he'
      rw [storeGet_filter h.store_nodup, he, Option.some_bind] at he'
      rcases hik : (i != k) with _ | _
      · rw [hik] at he'; simp at he'
      · rw [hik, if_pos rfl] at he'
        cases he'
        exact ⟨rfl, rfl, rfl, rfl⟩
  | removeAll x =>
    simp only [applyOp, remove_all_for] at he'
    rw [storeGet_filter h.store_nodup, he, Option.some_bind] at he'
    rcases hrx : (!(e.refs x)) with _ | _
    · rw [hrx] at he'; simp at he'
    · rw [hrx, if_pos rfl] at he'
      cases he'
      exact ⟨rfl, rfl, rfl, rfl⟩
  | activate k =>
    simp only [applyOp] at he'
    rcases ha : activate_ancestors idx k with _ | ⟨idx2, out⟩
    · simp only [ha] at he'
      rw [he] at he'
      cases he'
      exact ⟨rfl, rfl, rfl, rfl⟩
    · simp only [ha] at he'
      rcases (activate_spec ha).2.2.2.2.2 i with hh | hh
      · rw [hh, he] at he'
        cases he'
        exact ⟨rfl, rfl, rfl, rfl⟩
      · rw [hh, he, Option.map_some'] at he'
        cases he'
        exact ⟨rfl, rfl, rfl, rfl⟩
  | clear =>
    simp only [applyOp, clear_activation] at he'
    rw [storeGet_clearMap, he, Option.map_some'] at he'
    cases he'
    exact ⟨rfl, rfl, rfl, rfl⟩

theorem C6_structural_immutability_witness :
    (⟨some "C", "D", [], db_op_t.DB_OP_UNION, false⟩ : Edge).parent =
      (⟨some "C", "D", [], db_op_t.DB_OP_UNION, false⟩ : Edge).parent :=
  (@C6_structural_immutability exChain exChain_WF Op.clear 2
    ⟨some "C", "D", [], db_op_t.DB_OP_UNION, false⟩
    ⟨some "C", "D", [], db_op_t.DB_OP_UNION, false⟩
    (by decide) (by decide)).1

/-- C4: Duplicate detection — inserting a second edge with identical parent,
child, transform and operator succeeds under the model's disambiguation
policy (distinct allocation ids): the two duplicates are distinct handles,
each independently retrievable from the heap, and each independently
removable (removing one leaves the other live); neither is merged with nor
drops the other. -/
theorem C4_duplicate_detection {idx idx1 idx2 : EdgeIndex} {i1 i2 : Nat}
    (h : WF idx) (p : PKey) (c : String) (t : Mat) (o : db_op_t)
    (h1 : insert_edge idx p c t o = (idx1, i1))
    (h2 : insert_edge idx1 p c t o = (idx2, i2)) :
    i1 ≠ i2 ∧
    storeGet i1 idx2.store = some ⟨p, c, t, o, false⟩ ∧
    storeGet i2 idx2.store = some ⟨p, c, t, o, false⟩ ∧
    storeGet i1 (remove_edge idx2 i1).store = none ∧
    storeGet i2 (remove_edge idx2 i1).store = some ⟨p, c, t, o, false⟩ ∧
    storeGet i2 (remove_edge idx2 i2).store = none ∧
    storeGet i1 (remove_edge idx2 i2).store = some ⟨p, c, t, o, false⟩ := by
  have e1 := congrArg Prod.fst h1
  have n1 := congrArg Prod.snd h1
  have e2 := congrArg Prod.fst h2
  have n2 := congrArg Prod.snd h2
  dsimp only at e1 n1 e2 n2
  have hw1 : WF idx1 := e1 ▸ WF_insert h
  have hw2 : WF idx2 := e2 ▸ WF_insert hw1
  have hf2 : storeGet i2 idx1.store = none := n2 ▸ insert_fresh hw1
  have hs1 : idx1.store = (i1, (⟨p, c, t, o, false⟩ : Edge)) :: idx.store := by
    rw [← e1, ← n1]
    rfl
  have hs2 : idx2.store = (i2, (⟨p, c, t, o, false⟩ : Edge)) :: idx1.store
    := by
    rw [← e2, ← n2]
    rfl
  have hl1 : storeGet i1 idx1.store = some ⟨p, c, t, o, false⟩ := by
    rw [hs1]; exact storeGet_cons_self
  have hne : i1 ≠ i2 := by
    intro hh
    rw [hh, hf2] at hl1
    exact Option.noConfusion hl1
  have hg1 : storeGet i1 idx2.store = some ⟨p, c, t, o, false⟩ := by
    rw [hs2, storeGet_cons_ne (fun hh => hne hh.symm)]
    exact hl1
  have hg2 : storeGet i2 idx2.store = some ⟨p, c, t, o, false⟩ := by
    rw [hs2]; exact storeGet_cons_self
  have hb21 : (i2 != i1) = true := by
    rw [bne_iff_ne]; exact fun hh => hne hh.symm
  have hb12 : (i1 != i2) = true := by
    rw [bne_iff_ne]; exact hne
  refine ⟨hne, hg1, hg2, ?_, ?_, ?_, ?_⟩
  · simp only [remove_edge, hg1]
    exact storeGet_filter_self
  · simp only [remove_edge, hg1]
    rw [storeGet_filter hw2.store_nodup, hg2, Option.some_bind, if_pos hb21]
  · simp only [remove_edge, hg2]
    exact storeGet_filter_self
  · simp only [remove_edge, hg2]
    rw [storeGet_filter hw2.store_nodup, hg1, Option.some_bind, if_pos hb12]

theorem C4_duplicate_detection_witness :
    (0 : Nat) ≠ 1 ∧
    storeGet 1 (remove_edge
      (insert_edge
        (insert_edge emptyIndex (some "P") "C" [] db_op_t.DB_OP_UNION).1
        (some "P") "C" [] db_op_t.DB_OP_UNION).1 0).store =
      some ⟨some "P", "C", [], db_op_t.DB_OP_UNION, false⟩ := by
  have h := C4_duplicate_detection WF_empty (some "P") "C" []
    db_op_t.DB_OP_UNION rfl rfl
  exact ⟨h.1, h.2.2.2.2.1⟩

/-! ### Termination of the activation worklist -/

/-- The non-root parent names of the live edges: every entry the worklist can
ever enqueue. -/
def parentNames (s : List (Nat × Edge)) : List String :=
  s.filterMap (fun pr => pr.2.parent)

theorem parentNames_setActive {b : Bool} {i : Nat} {s : List (Nat × Edge)} :
    parentNames (setActive b i s) = parentNames s := by
  induction s with
  | nil => rfl
  | cons hd t ih =>
    obtain ⟨j, e⟩ := hd
    by_cases hj : j = i <;>
      simp [setActive, parentNames, hj, List.filterMap_cons] <;>
      simp only [parentNames] at ih <;>
      rw [ih]

theorem parentNames_fold (ids : List Nat) (s : List (Nat × Edge))
    (acc : List Nat) :
    parentNames
      ((ids.foldl
        (fun sa i =>
          if i ∈ sa.2 then sa else (setActive true i sa.1, sa.2 ++ [i]))
        (s, acc)).1) = parentNames s := by
  induction ids generalizing s acc with
  | nil => rfl
  | cons i t ih =>
    simp only [List.foldl_cons]
    by_cases hi : i ∈ acc
    · rw [if_pos hi]; exact ih s acc
    · rw [if_neg hi, ih _ _]
      exact parentNames_setActive

theorem enqueueNew_spec (ps : List String) :
    ∀ q v : List String, q ⊆ v → v.Nodup →
      (enqueueNew (q, v) ps).1 ⊆ (enqueueNew (q, v) ps).2 ∧
      (enqueueNew (q, v) ps).2.Nodup ∧
      (∀ x ∈ (enqueueNew (q, v) ps).2, x ∈ v ∨ x ∈ ps) ∧
      (enqueueNew (q, v) ps).1.length + v.length
        = q.length + (enqueueNew (q, v) ps).2.length := by
  induction ps with
  | nil =>
    intro q v hqv hvn
    exact ⟨hqv, hvn, fun x hx => Or.inl hx, rfl⟩
  | cons p t ih =>
    intro q v hqv hvn
    have hcons : enqueueNew (q, v) (p :: t)
        = enqueueNew (if p ∈ v then (q, v) else (q ++ [p], p :: v)) t := rfl
    rw [hcons]
    by_cases hp : p ∈ v
    · rw [if_pos hp]
      have hrec := ih q v hqv hvn
      exact ⟨hrec.1, hrec.2.1,
        fun x hx => (hrec.2.2.1 x hx).imp id (List.mem_cons_of_mem p),
        hrec.2.2.2⟩
    · rw [if_neg hp]
      have hsub : q ++ [p] ⊆ p :: v := by
        intro x hx
        rcases List.mem_append.1 hx with hx | hx
        · exact List.mem_cons_of_mem p (hqv hx)
        · rw [List.mem_singleton] at hx
          subst hx
          exact List.mem_cons_self _ _
      have hnd : (p :: v).Nodup := List.nodup_cons.2 ⟨hp, hvn⟩
      have hrec := ih (q ++ [p]) (p :: v) hsub hnd
      refine ⟨hrec.1, hrec.2.1, ?_, ?_⟩
      · intro x hx
        rcases hrec.2.2.1 x hx with hx | hx
        · rcases List.mem_cons.1 hx with hx | hx
          · subst hx
            exact Or.inr (List.mem_cons_self _ _)
          · exact Or.inl hx
        · exact Or.inr (List.mem_cons_of_mem _ hx)
      · have hl := hrec.2.2.2
        simp only [List.length_append, List.length_cons, List.length_nil]
          at hl ⊢
        omega

/-- The worklist walk of §4.3 always drains its queue within the fuel bound:
entries are enqueued at most once (the visited set), and every enqueued entry
is one of the finitely many parent names. -/
theorem bfs_total (allowed : List String) :
    ∀ (fuel : Nat) (q v : List String) (idx : EdgeIndex) (acc : List Nat),
      q ⊆ v → v.Nodup → (∀ x ∈ v, x ∈ allowed) →
      (∀ y ∈ parentNames idx.store, y ∈ allowed) →
      q.length + allowed.length ≤ fuel + v.length →
      (bfs fuel q v idx acc).isSome := by
  intro fuel
  induction fuel with
  | zero =>
    intro q v idx acc hqv hvn hva hpn hfuel
    rcases q with _ | ⟨cur, qs⟩
    · simp [bfs]
    · exfalso
      have hvlen : v.length ≤ allowed.length := by
        have h1 : v.toFinset.card = v.length := List.toFinset_card_of_nodup hvn
        have h2 : v.toFinset ⊆ allowed.toFinset := by
          intro x hx
          rw [List.mem_toFinset] at hx ⊢
          exact hva x hx
        have h3 := Finset.card_le_card h2
        have h4 := allowed.toFinset_card_le
        omega
      simp only [List.length_cons] at hfuel
      omega
  | succ n ih =>
    intro q v idx acc hqv hvn hva hpn hfuel
    rcases q with _ | ⟨cur, qs⟩
    · simp [bfs]
    · simp only [bfs]
      have hq' : qs ⊆ v := fun x hx => hqv (List.mem_cons_of_mem _ hx)
      have spec := enqueueNew_spec
        ((entryEdges idx cur).filterMap
          (fun i => (storeGet i idx.store).bind Edge.parent)) qs v hq' hvn
      refine ih _ _ _ _ spec.1 spec.2.1 ?_ ?_ ?_
      · intro x hx
        rcases spec.2.2.1 x hx with hx | hx
        · exact hva x hx
        · rcases List.mem_filterMap.1 hx with ⟨j, _, hj⟩
          rcases hb : storeGet j idx.store with _ | e
          · rw [hb] at hj
            exact absurd hj (by simp)
          · rw [hb, Option.some_bind] at hj
            apply hpn
            exact List.mem_filterMap.2 ⟨(j, e), mem_of_storeGet hb, hj⟩
      · intro y hy
        rw [parentNames_fold] at hy
        exact hpn y hy
      · have hl := spec.2.2.2
        simp only [List.length_cons] at hfuel
        omega

/-- `activate_ancestors` terminates (returns a result) on every live starting
edge, for any index — even one whose parent/child relation is cyclic. -/
theorem activate_total {idx : EdgeIndex} {i : Nat}
    (hl : (storeGet i idx.store).isSome) :
    (activate_ancestors idx i).isSome := by
  rcases hg : storeGet i idx.store with _ | e
  · rw [hg] at hl
    simp at hl
  · simp only [activate_ancestors, hg]
    rcases hp : e.parent with _ | p
    · simp
    · apply bfs_total (p :: parentNames idx.store)
      · exact fun x hx => hx
      · exact List.nodup_singleton p
      · intro x hx
        rw [List.mem_singleton] at hx
        subst hx
        exact List.mem_cons_self _ _
      · intro y hy
        rw [show ({ idx with store := setActive true i idx.store } :
            EdgeIndex).store = setActive true i idx.store from rfl,
          parentNames_setActive] at hy
        exact List.mem_cons_of_mem _ hy
      · have hle : (parentNames idx.store).length ≤ idx.store.length :=
          List.length_filterMap_le _ _
        simp only [List.length_cons, List.length_singleton]
        omega

/-- A linear chain a→b→c→d with arbitrary transforms and operators, built by
three insertions into an empty index (edge ids 0 = a→b, 1 = b→c, 2 = c→d). -/
def mkChain (a b c d : String) (t1 t2 t3 : Mat) (o1 o2 o3 : db_op_t) :
    EdgeIndex :=
  (insert_edge
    (insert_edge
      (insert_edge emptyIndex (some a) b t1 o1).1 (some b) c t2 o2).1
    (some c) d t3 o3).1

/-- A two-edge cycle a→b→a with arbitrary transforms and operators, built by
two insertions into an empty index (edge ids 0 = a→b, 1 = b→a). -/
def mkCycle (a b : String) (t1 t2 : Mat) (o1 o2 : db_op_t) : EdgeIndex :=
  (insert_edge (insert_edge emptyIndex (some a) b t1 o1).1 (some b) a t2 o2).1

/-- C2: Activation closure — on the index holding the chain a→b→c→d (distinct
entries, arbitrary transforms and operators), `activate_ancestors` on the
edge (c,d) terminates with exactly the edges (c,d), (b,c), (a,b) active — the
resulting heap is stated in full, so no other edge is touched — and returns
exactly those edge ids; a subsequent `clear_activation` resets every edge in
the index to inactive. -/
theorem C2_activation_closure (a b c d : String) (t1 t2 t3 : Mat)
    (o1 o2 o3 : db_op_t) (hab : a ≠ b) (hac : a ≠ c) (had : a ≠ d)
    (hbc : b ≠ c) (hbd : b ≠ d) (hcd : c ≠ d) :
    (activate_ancestors (mkChain a b c d t1 t2 t3 o1 o2 o3) 2).map
        (fun r => (r.1.store, r.2)) =
      some ([(2, ⟨some c, d, t3, o3, true⟩),
             (1, ⟨some b, c, t2, o2, true⟩),
             (0, ⟨some a, b, t1, o1, true⟩)], [2, 1, 0]) ∧
    (activate_ancestors (mkChain a b c d t1 t2 t3 o1 o2 o3) 2).map
        (fun r => (clear_activation r.1).store) =
      some [(2, ⟨some c, d, t3, o3, false⟩),
            (1, ⟨some b, c, t2, o2, false⟩),
            (0, ⟨some a, b, t1, o1, false⟩)] := by
  constructor <;>
    simp [mkChain, activate_ancestors, insert_edge, emptyIndex, storeGet,
      bfs, entryEdges, alUpdate, alGet, setActive, enqueueNew,
      clear_activation, hab, hac, had, hbc, hbd, hcd,
      Ne.symm hab, Ne.symm hac, Ne.symm had, Ne.symm hbc, Ne.symm hbd,
      Ne.symm hcd]

theorem C2_activation_closure_witness :
    (activate_ancestors
        (mkChain "A" "B" "C" "D" [] [] [] db_op_t.DB_OP_UNION
          db_op_t.DB_OP_UNION db_op_t.DB_OP_UNION) 2).map
        (fun r => (r.1.store, r.2)) =
      some ([(2, ⟨some "C", "D", [], db_op_t.DB_OP_UNION, true⟩),
             (1, ⟨some "B", "C", [], db_op_t.DB_OP_UNION, true⟩),
             (0, ⟨some "A", "B", [], db_op_t.DB_OP_UNION, true⟩)],
        [2, 1, 0]) :=
  (C2_activation_closure "A" "B" "C" "D" [] [] [] db_op_t.DB_OP_UNION
    db_op_t.DB_OP_UNION db_op_t.DB_OP_UNION (by decide) (by decide)
    (by decide) (by decide) (by decide) (by decide)).1

/-- C3: Cycle termination — `activate_ancestors` terminates (returns a
result) on every live starting edge of every index, cyclic relations
included, because the visited set never lets an entry be re-enqueued; and on
the two-edge cycle a→b→a it activates, starting from either edge, exactly the
two cycle edges, each recorded exactly once in the returned activation
set. -/
theorem C3_cycle_termination :
    (∀ (idx : EdgeIndex) (i : Nat), (storeGet i idx.store).isSome →
      (activate_ancestors idx i).isSome) ∧
    (∀ (a b : String) (t1 t2 : Mat) (o1 o2 : db_op_t), a ≠ b →
      (activate_ancestors (mkCycle a b t1 t2 o1 o2) 0).map
          (fun r => (r.1.store, r.2)) =
        some ([(1, ⟨some b, a, t2, o2, true⟩),
               (0, ⟨some a, b, t1, o1, true⟩)], [0, 1]) ∧
      (activate_ancestors (mkCycle a b t1 t2 o1 o2) 1).map
          (fun r => (r.1.store, r.2)) =
        some ([(1, ⟨some b, a, t2, o2, true⟩),
               (0, ⟨some a, b, t1, o1, true⟩)], [1, 0])) := by
  refine ⟨fun idx i h => activate_total h, ?_⟩
  intro a b t1 t2 o1 o2 hab
  constructor <;>
    simp [mkCycle, activate_ancestors, insert_edge, emptyIndex, storeGet,
      bfs, entryEdges, alUpdate, alGet, setActive, enqueueNew,
      hab, Ne.symm hab]

theorem C3_cycle_termination_witness :
    (activate_ancestors
      (mkCycle "A" "B" [] [] db_op_t.DB_OP_UNION db_op_t.DB_OP_UNION)
      0).isSome ∧
    (activate_ancestors
        (mkCycle "A" "B" [] [] db_op_t.DB_OP_UNION db_op_t.DB_OP_UNION)
        0).map (fun r => (r.1.store, r.2)) =
      some ([(1, ⟨some "B", "A", [], db_op_t.DB_OP_UNION, true⟩),
             (0, ⟨some "A", "B", [], db_op_t.DB_OP_UNION, true⟩)],
        [0, 1]) :=
  ⟨C3_cycle_termination.1
      (mkCycle "A" "B" [] [] db_op_t.DB_OP_UNION db_op_t.DB_OP_UNION) 0
      (by decide),
    (C3_cycle_termination.2 "A" "B" [] [] db_op_t.DB_OP_UNION
      db_op_t.DB_OP_UNION (by decide)).1⟩

end QgModelSpec
